import Mathlib

/-!
Verification of the video-translator pipeline core (`app/services.py`,
`app/main.py`) against its natural-language specification.

The Python code is shallowly embedded: Python `float` values that the
checked claims exercise are decimal constants and sums/products thereof,
so they are modelled exactly as rationals (`ℚ`); Python `int` is `ℤ`;
Python strings are Lean `String` (or `List Char` where character-level
reasoning is needed); functions that `raise` are embedded with
`Option`/`Except` results.  Python's `round` (banker's rounding) and
truncating `int(...)` conversion are modelled explicitly below.
-/

namespace VT

/-- Python `round(x)` on a real value: round half to even, as `ℚ → ℤ`. -/
def pyRound (q : ℚ) : ℤ :=
  let f : ℤ := ⌊q⌋
  let r : ℚ := q - f
  if r < 1/2 then f
  else if 1/2 < r then f + 1
  else if f % 2 = 0 then f else f + 1

/-- Python `int(x)` on a real value: truncation toward zero. -/
def pyInt (q : ℚ) : ℤ :=
  if 0 ≤ q then ⌊q⌋ else -⌊-q⌋

theorem pyRound_nonneg {q : ℚ} (h : 0 ≤ q) : 0 ≤ pyRound q := by
  have hf : (0 : ℤ) ≤ ⌊q⌋ := Int.floor_nonneg.mpr h
  unfold pyRound
  dsimp only
  split
  · exact hf
  · split
    · omega
    · split
      · exact hf
      · omega

/-- `app/models.py` `Segment`: a timestamped piece of transcript text.
The source field `end` is a Lean keyword, so it is embedded as `stop`. -/
structure Segment where
  start : ℚ
  stop : ℚ
  text : String
deriving DecidableEq

/-- `app/models.py` `TranslationSegment`: a `Segment` plus its language. -/
structure TranslationSegment where
  start : ℚ
  stop : ℚ
  text : String
  language : String
deriving DecidableEq

instance : Inhabited TranslationSegment := ⟨⟨0, 0, "", ""⟩⟩

/-! ### ChunkSizer (`services._select_chunk_duration`, lines 249-280) -/

/-- `services.PCM16_MONO_16KHZ_BYTES_PER_SECOND = 16000 * 2`. -/
def PCM16_MONO_16KHZ_BYTES_PER_SECOND : ℤ := 16000 * 2

/-- The effective upload rate used by `_select_chunk_duration`: the nominal
`file_size / duration` rate clamped upward to the 32,000 B/s re-encode
floor (`bytes_per_second = max(bytes_per_second, PCM16_...)`). -/
def effectiveBytesPerSecond (fileSizeBytes : ℤ) (durationSeconds : ℚ) : ℚ :=
  max ((fileSizeBytes : ℚ) / durationSeconds) (PCM16_MONO_16KHZ_BYTES_PER_SECOND : ℚ)

/-- `services._select_chunk_duration(file_size_bytes, duration_seconds,
max_bytes, default_seconds=600)`. -/
def selectChunkDuration (fileSizeBytes : ℤ) (durationSeconds : ℚ)
    (maxBytes : ℤ) (defaultSeconds : ℤ) : ℤ :=
  if fileSizeBytes ≤ 0 ∨ durationSeconds ≤ 0 ∨ maxBytes ≤ 0 then
    max 1 defaultSeconds
  else
    let defaultSeconds' := if defaultSeconds ≤ 0 then 600 else defaultSeconds
    let bytesPerSecond := effectiveBytesPerSecond fileSizeBytes durationSeconds
    if bytesPerSecond ≤ 0 then defaultSeconds'
    else max 1 (pyInt ((maxBytes : ℚ) / bytesPerSecond))

/-! ### RateMapper (`services._edge_rate_from_speed`, lines 737-752) -/

/-- Python `f"{r:+d}%"`: the rate delta as a signed percentage string. -/
def signedPercent (r : ℤ) : String :=
  (if 0 < r then "+" ++ toString r else toString r) ++ "%"

/-- `services._edge_rate_from_speed(speed_multiplier)`. -/
def edgeRateFromSpeed (speedMultiplier : ℚ) : Option String :=
  if speedMultiplier ≤ 0 then none
  else
    let deltaPct := (speedMultiplier - 1) * 100
    if |deltaPct| < 1/2 then none
    else
      let clamped := max (min deltaPct 100) (-50)
      let rounded := pyRound clamped
      if rounded = 0 then none
      else some (signedPercent rounded)

/-- The rate mapping exactly as claim C9 words it: null when the
multiplier is non-positive, when the raw delta is within half a percent
of zero, or when the clamped delta rounds to zero; otherwise the delta
clamped to [-50, 100] and rounded, as a signed percentage string. -/
def rateFromSpeedSpec (m : ℚ) : Option String :=
  let delta := (m - 1) * 100
  let clamped := max (min delta 100) (-50)
  if m ≤ 0 ∨ |delta| < 1/2 ∨ pyRound clamped = 0 then none
  else some (signedPercent (pyRound clamped))

theorem edgeRateFromSpeed_eq_spec (m : ℚ) :
    edgeRateFromSpeed m = rateFromSpeedSpec m := by
  unfold edgeRateFromSpeed rateFromSpeedSpec
  dsimp only
  split_ifs <;> first | rfl | tauto

theorem effectiveBytesPerSecond_pos (size : ℤ) (dur : ℚ) :
    0 < effectiveBytesPerSecond size dur := by
  have : (0 : ℚ) < (PCM16_MONO_16KHZ_BYTES_PER_SECOND : ℚ) := by norm_num [PCM16_MONO_16KHZ_BYTES_PER_SECOND]
  exact lt_of_lt_of_le this (le_max_right _ _)

/-- The positive-input branch of `_select_chunk_duration` computes
`max 1 ⌊cap / eff⌋`. -/
theorem selectChunkDuration_pos_eq (size : ℤ) (dur : ℚ) (cap dflt : ℤ)
    (hs : 0 < size) (hd : 0 < dur) (hc : 0 < cap) :
    selectChunkDuration size dur cap dflt =
      max 1 ⌊(cap : ℚ) / effectiveBytesPerSecond size dur⌋ := by
  have hcond : ¬(size ≤ 0 ∨ dur ≤ 0 ∨ cap ≤ 0) := by
    push_neg
    exact ⟨hs, hd, hc⟩
  have heff := effectiveBytesPerSecond_pos size dur
  have hq : (0 : ℚ) ≤ (cap : ℚ) / effectiveBytesPerSecond size dur :=
    div_nonneg (by exact_mod_cast hc.le) heff.le
  unfold selectChunkDuration
  rw [if_neg hcond]
  simp only [not_le.mpr heff, if_false]
  rw [pyInt, if_pos hq]

/-- C4 (counterexample): the claim's bound `result × effective_rate ≤ cap`
fails on positive inputs `(1, 1, 1000)`: the nominal rate 1 B/s is clamped
up to 32,000 B/s, `int(1000 / 32000) = 0`, and the final `max(1, 0) = 1`
second yields `1 × 32000 = 32000 > 1000` bytes. -/
theorem selectChunkDuration_cap_counterexample :
    selectChunkDuration 1 1 1000 600 = 1 ∧
      ¬((selectChunkDuration 1 1 1000 600 : ℚ) *
          effectiveBytesPerSecond 1 1 ≤ (1000 : ℚ)) := by
  constructor
  · with_unfolding_all rfl
  · with_unfolding_all (exact of_decide_eq_true rfl)

/-- C4 (amended): for positive inputs whose effective byte rate (the
nominal `size/duration` rate clamped up to the 32,000 B/s re-encode
floor) does not exceed `max_upload_bytes`, the selected chunk duration
times the effective rate stays within `max_upload_bytes`; for any zero
or negative input the result is `default_seconds` (or 1 when
`default_seconds ≤ 0`). -/
theorem selectChunkDuration_spec (size : ℤ) (dur : ℚ) (cap dflt : ℤ) :
    (0 < size → 0 < dur → 0 < cap →
      effectiveBytesPerSecond size dur ≤ (cap : ℚ) →
      (selectChunkDuration size dur cap dflt : ℚ) *
          effectiveBytesPerSecond size dur ≤ (cap : ℚ)) ∧
    ((size ≤ 0 ∨ dur ≤ 0 ∨ cap ≤ 0) →
      selectChunkDuration size dur cap dflt =
        if dflt ≤ 0 then 1 else dflt) := by
  constructor
  · intro hs hd hc hle
    set eff := effectiveBytesPerSecond size dur with heffdef
    have heff : 0 < eff := effectiveBytesPerSecond_pos size dur
    have h1 : (1 : ℚ) ≤ (cap : ℚ) / eff := (one_le_div heff).mpr hle
    have hfl : (1 : ℤ) ≤ ⌊(cap : ℚ) / eff⌋ := by
      rw [Int.le_floor]
      exact_mod_cast h1
    rw [selectChunkDuration_pos_eq size dur cap dflt hs hd hc, ← heffdef,
      max_eq_right hfl]
    calc (⌊(cap : ℚ) / eff⌋ : ℚ) * eff
        ≤ ((cap : ℚ) / eff) * eff :=
          mul_le_mul_of_nonneg_right (Int.floor_le _) heff.le
      _ = (cap : ℚ) := div_mul_cancel₀ _ heff.ne'
  · intro h
    unfold selectChunkDuration
    rw [if_pos h]
    omega

/-- C4 (witness): at `(size, dur, cap) = (125829120, 3600, 25165824)` the
effective rate is below the cap and the bound holds; at `(-1, 1, 1000)`
the default 600 is returned. -/
theorem selectChunkDuration_spec_witness :
    ((selectChunkDuration 125829120 3600 25165824 600 : ℚ) *
        effectiveBytesPerSecond 125829120 3600 ≤ (25165824 : ℚ)) ∧
      selectChunkDuration (-1) 1 1000 600 = if (600 : ℤ) ≤ 0 then 1 else 600 := by
  constructor
  · exact (selectChunkDuration_spec 125829120 3600 25165824 600).1
      (by norm_num) (by norm_num) (by norm_num)
      (by with_unfolding_all (exact of_decide_eq_true rfl))
  · exact (selectChunkDuration_spec (-1) 1 1000 600).2 (Or.inl (by norm_num))

/-- C5 (counterexample): on `size = 120 MB`, `duration = 3600 s`,
`cap = 24 MB` the code returns 720 seconds, not
`floor(max_upload_bytes / 32000) = 786`: the nominal rate
`125829120/3600 ≈ 34952.5 B/s` is above the 32,000 B/s floor, so the
floor does not dominate as the claim asserts. -/
theorem selectChunkDuration_example_counterexample :
    selectChunkDuration 125829120 3600 25165824 600 = 720 ∧
      pyInt ((25165824 : ℚ) / 32000) = 786 ∧ (720 : ℤ) ≠ 786 := by
  refine ⟨?_, ?_, by decide⟩
  · with_unfolding_all rfl
  · with_unfolding_all rfl

/-- C5 (amended): on `size = 120 MB`, `duration = 3600 s`, `cap = 24 MB`
the selected chunk duration is `720 = floor(cap / (size/duration))`
seconds, because the nominal `size/duration` rate exceeds the
32,000 B/s re-encode floor for this input. -/
theorem selectChunkDuration_example :
    selectChunkDuration 125829120 3600 25165824 600 = 720 ∧
      (720 : ℤ) = pyInt ((25165824 : ℚ) / ((125829120 : ℚ) / 3600)) ∧
      (32000 : ℚ) ≤ (125829120 : ℚ) / 3600 := by
  refine ⟨?_, ?_, ?_⟩
  · with_unfolding_all rfl
  · with_unfolding_all rfl
  · norm_num

/-- C9: `_edge_rate_from_speed` returns null for non-positive
multipliers, for deltas within half a percent of zero, and for clamped
deltas that round to zero; otherwise it returns the delta clamped to
[-50, 100], rounded, as a signed percentage string.  In particular
1.05 ↦ "+5%", 0.97 ↦ "-3%", 1.0 ↦ null, 2.0 ↦ "+100%" and 0.4 ↦ "-50%". -/
theorem edgeRateFromSpeed_spec :
    (∀ m : ℚ, edgeRateFromSpeed m = rateFromSpeedSpec m) ∧
      edgeRateFromSpeed (21/20) = some "+5%" ∧
      edgeRateFromSpeed (97/100) = some "-3%" ∧
      edgeRateFromSpeed 1 = none ∧
      edgeRateFromSpeed 2 = some "+100%" ∧
      edgeRateFromSpeed (2/5) = some "-50%" := by
  refine ⟨edgeRateFromSpeed_eq_spec, ?_, ?_, ?_, ?_, ?_⟩ <;> with_unfolding_all rfl

/-! ### LongAudioTranscriber stitching (`services.transcribe_audio_whisper`,
lines 361-389) -/

/-- A raw per-chunk Whisper segment (a `{start, end, text}` dict; `end`
is embedded as `stop`). -/
structure RawSeg where
  start : ℚ
  stop : ℚ
  text : String
deriving DecidableEq

/-- One chunk's transcription outcome, restricted to the fields the
stitching loop of `transcribe_audio_whisper` reads: the returned
segments (with chunk-local times) and the chunk audio's probed duration
(`_get_audio_duration(chunk_path)`, read only when no segments came
back). -/
structure ChunkResult where
  segments : List RawSeg
  duration : ℚ
deriving DecidableEq

/-- The loop body's time shift: `seg_copy["start"] += offset`,
`seg_copy["end"] += offset`. -/
def shiftSeg (offset : ℚ) (s : RawSeg) : RawSeg :=
  { s with start := s.start + offset, stop := s.stop + offset }

/-- The chunk-stitching loop of `transcribe_audio_whisper`: `offset`
starts at 0 and `combined_segments` empty; each chunk's segments are
shifted by `offset` and appended, after which `offset` becomes the last
appended segment's global end (`combined_segments[-1]["end"]`); a chunk
with no segments instead advances `offset` by its probed duration. -/
def stitchLoop : List ChunkResult → ℚ → List RawSeg → List RawSeg
  | [], _, acc => acc
  | c :: rest, offset, acc =>
    if c.segments.isEmpty then
      stitchLoop rest (offset + c.duration) acc
    else
      let acc2 := acc ++ c.segments.map (shiftSeg offset)
      stitchLoop rest ((acc2.getLastD ⟨0, 0, ""⟩).stop) acc2

/-- The stitched global segment list of `transcribe_audio_whisper`. -/
def stitchSegments (chunks : List ChunkResult) : List RawSeg :=
  stitchLoop chunks 0 []

/-- Claim C2's description of stitching: every per-chunk segment is
shifted by a running cumulative offset; the offset starts at 0 and,
after a chunk, equals the global end time of that chunk's last segment,
or is advanced by the chunk's probed duration when the chunk yielded no
segments. -/
def stitchSpecFrom : List ChunkResult → ℚ → List RawSeg
  | [], _ => []
  | c :: rest, offset =>
    let shifted := c.segments.map (shiftSeg offset)
    let nextOffset :=
      if c.segments.isEmpty then offset + c.duration
      else (shifted.getLastD ⟨0, 0, ""⟩).stop
    shifted ++ stitchSpecFrom rest nextOffset

def stitchSpec (chunks : List ChunkResult) : List RawSeg :=
  stitchSpecFrom chunks 0

theorem getLastD_append_of_ne_nil {α : Type} (acc l : List α) (d : α)
    (h : l ≠ []) : (acc ++ l).getLastD d = l.getLastD d := by
  rcases l with _ | ⟨b, bs⟩
  · exact absurd rfl h
  · induction acc generalizing d with
    | nil => rfl
    | cons a as ih =>
      rw [List.cons_append, List.getLastD_cons, ih a, List.getLastD_cons,
        List.getLastD_cons]

theorem stitchLoop_eq_spec (chunks : List ChunkResult) :
    ∀ (offset : ℚ) (acc : List RawSeg),
      stitchLoop chunks offset acc = acc ++ stitchSpecFrom chunks offset := by
  induction chunks with
  | nil => intro offset acc; simp [stitchLoop, stitchSpecFrom]
  | cons c rest ih =>
    intro offset acc
    unfold stitchLoop stitchSpecFrom
    dsimp only
    by_cases hempty : c.segments.isEmpty
    · rw [if_pos hempty, if_pos hempty, ih]
      simp [List.isEmpty_iff.mp hempty]
    · have hsegs : c.segments ≠ [] := by
        intro hnil
        exact hempty (by simp [hnil])
      have hne : c.segments.map (shiftSeg offset) ≠ [] := by
        simpa using hsegs
      rw [if_neg hempty, if_neg hempty, ih,
        getLastD_append_of_ne_nil acc _ _ hne, List.append_assoc]

/-- C2: the stitching loop shifts every per-chunk segment by the running
cumulative offset described in the claim (previous chunk's last global
end, or advanced by the probed duration for an empty chunk); in
particular two chunks contributing local segments
[(0,1,"a"),(1,2,"b")] and [(0,1,"c")] stitch into the continuous,
monotonically non-decreasing timeline [(0,1,"a"),(1,2,"b"),(2,3,"c")]. -/
theorem stitchSegments_spec :
    (∀ chunks : List ChunkResult, stitchSegments chunks = stitchSpec chunks) ∧
      stitchSegments
          [⟨[⟨0, 1, "a"⟩, ⟨1, 2, "b"⟩], 2⟩, ⟨[⟨0, 1, "c"⟩], 1⟩] =
        [⟨0, 1, "a"⟩, ⟨1, 2, "b"⟩, ⟨2, 3, "c"⟩] ∧
      List.Chain' (fun a b : RawSeg => a.start ≤ b.start ∧ a.stop = b.start)
        (stitchSegments
          [⟨[⟨0, 1, "a"⟩, ⟨1, 2, "b"⟩], 2⟩, ⟨[⟨0, 1, "c"⟩], 1⟩]) := by
  refine ⟨fun chunks => ?_, ?_, ?_⟩
  · rw [stitchSegments, stitchSpec, stitchLoop_eq_spec, List.nil_append]
  · with_unfolding_all rfl
  · have h : stitchSegments
        [⟨[⟨0, 1, "a"⟩, ⟨1, 2, "b"⟩], 2⟩, ⟨[⟨0, 1, "c"⟩], 1⟩] =
        [⟨0, 1, "a"⟩, ⟨1, 2, "b"⟩, ⟨2, 3, "c"⟩] := by with_unfolding_all rfl
    rw [h]
    norm_num [List.chain'_cons, List.chain'_singleton]

/-! ### String helpers for the Python string operations in the sources -/

/-- Python `sep.join(parts)`. -/
def pyJoin (sep : String) : List String → String
  | [] => ""
  | [x] => x
  | x :: rest => x ++ sep ++ pyJoin sep rest

/-- Python `pat in s` on the character list of `s`. -/
def containsSubAux (pat : List Char) : List Char → Bool
  | [] => pat.isEmpty
  | c :: rest => pat.isPrefixOf (c :: rest) || containsSubAux pat rest

/-- Python `pat in s` (contiguous substring containment). -/
def containsSub (s pat : String) : Bool :=
  containsSubAux pat.data s.data

/-- Python `s.strip()` on a character list (drop leading and trailing
whitespace; the sources only ever strip ASCII whitespace). -/
def pyStripChars (l : List Char) : List Char :=
  ((l.dropWhile Char.isWhitespace).reverse.dropWhile Char.isWhitespace).reverse

/-- Python `s.strip()`. -/
def pyStrip (s : String) : String := String.mk (pyStripChars s.data)

/-- Python `s.lower()` (ASCII case mapping, which covers every string
these sources lowercase). -/
def pyLower (s : String) : String := String.mk (s.data.map Char.toLower)

/-- Python `s.upper()` (ASCII case mapping). -/
def pyUpper (s : String) : String := String.mk (s.data.map Char.toUpper)

theorem text_ne_of_strip_ne {s : String} (h : pyStrip s ≠ "") : s ≠ "" := by
  intro hs
  rw [hs] at h
  exact h rfl

/-! ### SegmentPairer (`services.pair_translation_segments`,
lines 469-508) -/

/-- The pair built from the loop's `buffer`: first member's `start` and
`language`, last member's `end`, and the space-join of the trimmed texts
of the members with non-empty text. -/
def mkPair (buffer : List TranslationSegment) : TranslationSegment :=
  { start := (buffer.headD default).start
    stop := (buffer.getLastD default).stop
    text := pyJoin " " ((buffer.filter (fun s => s.text ≠ "")).map
      (fun s => pyStrip s.text))
    language := (buffer.headD default).language }

/-- The grouping loop of `pair_translation_segments`: skip segments with
blank text, push the rest onto a buffer, emit a pair whenever the buffer
reaches two members, and emit any leftover buffer at the end. -/
def pairLoop : List TranslationSegment → List TranslationSegment →
    List TranslationSegment
  | [], buffer => if buffer.isEmpty then [] else [mkPair buffer]
  | seg :: rest, buffer =>
    if seg.text = "" ∨ pyStrip seg.text = "" then pairLoop rest buffer
    else
      let buffer2 := buffer ++ [seg]
      if buffer2.length = 2 then mkPair buffer2 :: pairLoop rest []
      else pairLoop rest buffer2

/-- `services.pair_translation_segments`. -/
def pairTranslationSegments (segments : List TranslationSegment) :
    List TranslationSegment :=
  if segments.isEmpty then [] else pairLoop segments []

/-- Claim C8's description of pairing: group consecutive segments
two-at-a-time; each pair takes its first member's start and language,
its last member's end, and the space-join of its members' trimmed texts
in order; a trailing leftover item becomes its own one-item pair. -/
def pairSpec : List TranslationSegment → List TranslationSegment
  | [] => []
  | [a] => [⟨a.start, a.stop, pyStrip a.text, a.language⟩]
  | a :: b :: rest =>
      ⟨a.start, b.stop, pyStrip a.text ++ " " ++ pyStrip b.text, a.language⟩ ::
        pairSpec rest

theorem pairLoop_eq_spec (segments : List TranslationSegment)
    (h : ∀ s ∈ segments, pyStrip s.text ≠ "") :
    pairLoop segments [] = pairSpec segments := by
  induction segments using pairSpec.induct with
  | case1 => rfl
  | case2 a =>
    have ha : pyStrip a.text ≠ "" := h a (by simp)
    have ha' : a.text ≠ "" := text_ne_of_strip_ne ha
    simp [pairLoop, mkPair, pairSpec, pyJoin, ha, ha']
  | case3 a b rest ih =>
    have ha : pyStrip a.text ≠ "" := h a (by simp)
    have hb : pyStrip b.text ≠ "" := h b (by simp)
    have ha' : a.text ≠ "" := text_ne_of_strip_ne ha
    have hb' : b.text ≠ "" := text_ne_of_strip_ne hb
    have ihh := ih (fun s hs => h s (by simp [hs]))
    simp [pairLoop, mkPair, pairSpec, pyJoin, ha, ha', hb, hb', ihh]

theorem pairSpec_length (segments : List TranslationSegment) :
    (pairSpec segments).length = (segments.length + 1) / 2 := by
  induction segments using pairSpec.induct with
  | case1 => rfl
  | case2 a => simp [pairSpec]
  | case3 a b rest ih => simp [pairSpec, ih]; omega

/-- C8: on a list of N segments whose texts are all non-blank,
`pair_translation_segments` produces exactly `ceil(N/2)` pairs; each
pair takes its first member's start and language, its last member's
end, and the space-join of its members' trimmed texts in order, and a
trailing single leftover becomes its own one-item pair (the `pairSpec`
shape). -/
theorem pairTranslationSegments_spec (segments : List TranslationSegment)
    (h : ∀ s ∈ segments, pyStrip s.text ≠ "") :
    pairTranslationSegments segments = pairSpec segments ∧
      (pairTranslationSegments segments).length = (segments.length + 1) / 2 := by
  have hmain : pairTranslationSegments segments = pairSpec segments := by
    unfold pairTranslationSegments
    rcases segments with _ | ⟨a, rest⟩
    · rfl
    · rw [if_neg (by simp)]
      exact pairLoop_eq_spec _ h
  exact ⟨hmain, by rw [hmain, pairSpec_length]⟩

/-- C8 (witness): three non-blank segments pair into
`ceil(3/2) = 2` cues, the first merging the first two segments and the
second carrying the leftover alone. -/
theorem pairTranslationSegments_spec_witness :
    pairTranslationSegments
        [⟨0, 1, "x", "en"⟩, ⟨1, 2, "y", "en"⟩, ⟨2, 3, "z", "en"⟩] =
      [⟨0, 2, "x y", "en"⟩, ⟨2, 3, "z", "en"⟩] ∧
    (pairTranslationSegments
        [⟨0, 1, "x", "en"⟩, ⟨1, 2, "y", "en"⟩, ⟨2, 3, "z", "en"⟩]).length = 2 := by
  have h := pairTranslationSegments_spec
    [⟨0, 1, "x", "en"⟩, ⟨1, 2, "y", "en"⟩, ⟨2, 3, "z", "en"⟩]
    (by decide)
  refine ⟨?_, h.2⟩
  rw [h.1]
  with_unfolding_all rfl

/-! ### DubAudioSynthesizer delay computation
(`services.generate_dub_audio`, lines 1009-1086, and
`services.filter_amara_segments`, lines 442-466) -/

/-- The attribution-boilerplate test inside `filter_amara_segments`:
the lowercased text contains both "amara" and "org", or one of the five
known subtitle-attribution phrases. -/
def isBoilerplate (text : String) : Bool :=
  let lower := pyLower text
  (containsSub lower "amara" && containsSub lower "org") ||
    ([ "ondertiteling ingediend door",
       "subtitles submitted by",
       "sous-titres soumis par",
       "subtítulos enviados por",
       "sottotitoli inviati da"].any (fun phrase => containsSub lower phrase))

/-- `services.filter_amara_segments`: drop blank segments and segments
recognised as third-party attribution boilerplate. -/
def filterAmaraSegments (segments : List TranslationSegment) :
    List TranslationSegment :=
  segments.filter (fun seg =>
    (!(seg.text == "") && !(pyStrip seg.text == "")) &&
      !(isBoilerplate seg.text))

/-- Insert a segment after every earlier segment whose start is
strictly smaller, and before equal-start segments that followed it. -/
def insertByStart (s : TranslationSegment) :
    List TranslationSegment → List TranslationSegment
  | [] => [s]
  | t :: ts => if t.start < s.start then t :: insertByStart s ts else s :: t :: ts

/-- Stable sort by `start`.  Python's `sorted(..., key=lambda s: s.start)`
is a stable sort on the same key, and a stable sort by a fixed key is
functionally unique, so this insertion sort computes the same list. -/
def sortByStart : List TranslationSegment → List TranslationSegment
  | [] => []
  | s :: ss => insertByStart s (sortByStart ss)

/-- The segment list `generate_dub_audio` actually synthesizes:
boilerplate filtered out, the rest sorted chronologically, blank texts
dropped. -/
def dubFiltered (segments : List TranslationSegment) :
    List TranslationSegment :=
  (sortByStart (filterAmaraSegments segments)).filter
    (fun seg => !(seg.text == "") && !(pyStrip seg.text == ""))

/-- The total per-segment mixing delays (in ms) that
`generate_dub_audio` passes to the `adelay` filters:
`delay_ms = max(0, round(start*1000)) - first_segment_start_ms` for each
kept segment, plus
`base_delay_ms = first_segment_start_ms + required_silence_ms`; `none`
when nothing speakable remains (the code raises instead of mixing). -/
def dubTotalDelays (segments : List TranslationSegment)
    (leadingSilence : ℚ) : Option (List ℤ) :=
  match dubFiltered segments with
  | [] => none
  | first :: rest =>
    let requiredSilenceMs : ℤ := max 0 (pyRound (leadingSilence * 1000))
    let firstStartMs : ℤ := max 0 (pyRound (first.start * 1000))
    let baseDelayMs := firstStartMs + requiredSilenceMs
    some ((first :: rest).map (fun seg =>
      (max 0 (pyRound (seg.start * 1000)) - firstStartMs) + baseDelayMs))

/-- C1: whenever segments remain after boilerplate filtering, sorting
by start and dropping blanks, and all their starts and the leading
silence are non-negative, every kept segment's total mixing delay is
`(round(start*1000) - round(first.start*1000)) + round(first.start*1000)
+ round(leading_silence*1000)` milliseconds. -/
theorem dubTotalDelays_formula (segments : List TranslationSegment)
    (leadingSilence : ℚ)
    (hne : dubFiltered segments ≠ [])
    (hpos : ∀ s ∈ dubFiltered segments, 0 ≤ s.start)
    (hlead : 0 ≤ leadingSilence) :
    dubTotalDelays segments leadingSilence =
      some ((dubFiltered segments).map (fun seg =>
        (pyRound (seg.start * 1000) -
            pyRound (((dubFiltered segments).headD default).start * 1000)) +
          pyRound (((dubFiltered segments).headD default).start * 1000) +
          pyRound (leadingSilence * 1000))) := by
  obtain ⟨first, rest, heq⟩ := List.exists_cons_of_ne_nil hne
  have hfirst : 0 ≤ first.start := hpos first (by rw [heq]; exact List.mem_cons_self _ _)
  have hr : ∀ s : TranslationSegment, 0 ≤ s.start →
      max 0 (pyRound (s.start * 1000)) = pyRound (s.start * 1000) := by
    intro s hs
    exact max_eq_right (pyRound_nonneg (by positivity))
  have hlead' : 0 ≤ pyRound (leadingSilence * 1000) :=
    pyRound_nonneg (by positivity)
  unfold dubTotalDelays
  rw [heq]
  simp only [List.headD_cons, Option.some_inj]
  apply List.map_congr_left
  intro seg hseg
  have hs : 0 ≤ seg.start := hpos seg (by rw [heq]; exact hseg)
  rw [hr seg hs, hr first hfirst, max_eq_right hlead']
  omega

/-- Segments with starts 2.0, 5.0, 9.0 seconds (the spec's dub-delay
example). -/
def dubExampleSegments : List TranslationSegment :=
  [⟨2, 3, "a", "en"⟩, ⟨5, 6, "b", "en"⟩, ⟨9, 10, "c", "en"⟩]

/-- C1 (witness): with starts [2.0, 5.0, 9.0] and 0.3 s of leading
silence the total delays are [2300, 5300, 9300] ms. -/
theorem dubTotalDelays_formula_witness :
    dubTotalDelays dubExampleSegments (3/10) = some [2300, 5300, 9300] := by
  have h := dubTotalDelays_formula dubExampleSegments (3/10)
    (by with_unfolding_all (exact of_decide_eq_true rfl))
    (by with_unfolding_all (exact of_decide_eq_true rfl))
    (by norm_num)
  rw [h]
  with_unfolding_all rfl

/-! ### SegmentTranslator (`services.translate_segments`, lines 659-699)

The per-segment external translation call (`translate_text_deepl` /
`translate_text_ai`, chosen by `SUPPORTED_DEEPL` membership) is a
network collaborator; it is abstracted as an oracle
`String → String → Except String String` mapping (language, text) to a
translation or an error message, as the spec treats it ("assume one
callable per language").  Both `except` arms of the source clear the
partial list, append one warning naming the language, and `break`; the
embedding uses the `RuntimeError` arm's message shape. -/

/-- Python `dict[key] = value`: replace in place when the key exists,
append otherwise. -/
def dictInsert {β : Type} (d : List (String × β)) (k : String) (v : β) :
    List (String × β) :=
  if d.any (fun kv => kv.1 == k) then
    d.map (fun kv => if kv.1 == k then (k, v) else kv)
  else d ++ [(k, v)]

/-- Python `dict[key]` / `key in dict` lookup. -/
def lookupDict {β : Type} : List (String × β) → String → Option β
  | [], _ => none
  | (k, v) :: rest, key => if k = key then some v else lookupDict rest key

/-- The inner per-language loop of `translate_segments`: translate each
sentence pair in order, accumulating `translated_list`; on the first
error, discard the partial list and stop with the warning message. -/
def translateLangLoop (oracle : String → String → Except String String)
    (lang : String) :
    List Segment → List TranslationSegment →
    Except String (List TranslationSegment)
  | [], acc => Except.ok acc
  | seg :: rest, acc =>
    match oracle lang seg.text with
    | Except.error e =>
        Except.error ("Vertaling mislukt voor " ++ lang ++ ": " ++ e)
    | Except.ok t =>
        translateLangLoop oracle lang rest
          (acc ++ [⟨seg.start, seg.stop, t, lang⟩])

/-- The outer loop of `translate_segments`: for each requested language
(lowercased), run the inner loop; a failure appends its warning, a
non-empty success stores the list under the language key. -/
def translateSegmentsLoop (oracle : String → String → Except String String)
    (sentencePairs : List Segment) :
    List String → List (String × List TranslationSegment) → List String →
    List (String × List TranslationSegment) × List String
  | [], result, warnings => (result, warnings)
  | lang :: rest, result, warnings =>
    let l := pyLower lang
    match translateLangLoop oracle l sentencePairs [] with
    | Except.error w =>
        translateSegmentsLoop oracle sentencePairs rest result (warnings ++ [w])
    | Except.ok ts =>
        if ts.isEmpty then
          translateSegmentsLoop oracle sentencePairs rest result warnings
        else
          translateSegmentsLoop oracle sentencePairs rest
            (dictInsert result l ts) warnings

/-- `services.translate_segments`: returns the per-language translation
map and the warning list. -/
def translateSegments (oracle : String → String → Except String String)
    (sentencePairs : List Segment) (targetLangs : List String) :
    List (String × List TranslationSegment) × List String :=
  translateSegmentsLoop oracle sentencePairs targetLangs [] []

/-- The warning one language's processing produces, if any. -/
def langWarning (oracle : String → String → Except String String)
    (sentencePairs : List Segment) (l : String) : Option String :=
  match translateLangLoop oracle l sentencePairs [] with
  | Except.error w => some w
  | Except.ok _ => none

/-- The result-map entry one language's processing produces, if any. -/
def langResult (oracle : String → String → Except String String)
    (sentencePairs : List Segment) (l : String) :
    Option (List TranslationSegment) :=
  match translateLangLoop oracle l sentencePairs [] with
  | Except.error _ => none
  | Except.ok ts => if ts.isEmpty then none else some ts

theorem dictInsert_of_not_mem {β : Type} (d : List (String × β)) (k : String)
    (v : β) (h : ∀ kv ∈ d, kv.1 ≠ k) : dictInsert d k v = d ++ [(k, v)] := by
  unfold dictInsert
  rw [if_neg]
  intro hany
  rw [List.any_eq_true] at hany
  obtain ⟨kv, hkv, hbeq⟩ := hany
  exact h kv hkv (by simpa using hbeq)

theorem lookupDict_of_not_mem {β : Type} (d : List (String × β)) (k : String)
    (h : ∀ kv ∈ d, kv.1 ≠ k) : lookupDict d k = none := by
  induction d with
  | nil => rfl
  | cons kv rest ih =>
    obtain ⟨k0, v0⟩ := kv
    unfold lookupDict
    rw [if_neg (h (k0, v0) (List.mem_cons_self _ _))]
    exact ih (fun kv hkv => h kv (List.mem_cons_of_mem _ hkv))

theorem filterMap_entry_key {β : Type} (g : String → Option β)
    (L : List String) (kv : String × β)
    (h : kv ∈ L.filterMap (fun l => (g l).map (fun v => (l, v)))) :
    kv.1 ∈ L ∧ g kv.1 = some kv.2 := by
  obtain ⟨l, hl, hkvl⟩ := List.mem_filterMap.mp h
  cases hgl : g l with
  | none => rw [hgl] at hkvl; simp at hkvl
  | some v =>
    rw [hgl] at hkvl
    simp only [Option.map_some'] at hkvl
    obtain rfl : kv = (l, v) := by simpa using hkvl.symm
    exact ⟨hl, hgl⟩

theorem lookupDict_filterMap {β : Type} (g : String → Option β) :
    ∀ L : List String, L.Nodup → ∀ k ∈ L,
      lookupDict (L.filterMap (fun l => (g l).map (fun v => (l, v)))) k =
        g k := by
  intro L
  induction L with
  | nil => intro _ k hk; exact absurd hk (List.not_mem_nil k)
  | cons l0 rest ih =>
    intro hnd k hk
    have hnd' := (List.nodup_cons.mp hnd).2
    have hni := (List.nodup_cons.mp hnd).1
    rw [List.filterMap_cons]
    cases hg : g l0 with
    | none =>
      simp only [Option.map_none']
      rcases List.mem_cons.mp hk with hkl | hkr
      · subst hkl
        rw [lookupDict_of_not_mem]
        · exact hg.symm
        · intro kv hkv
          have hkey := (filterMap_entry_key g rest kv hkv).1
          intro hcontra
          rw [hcontra] at hkey
          exact hni hkey
      · exact ih hnd' k hkr
    | some v =>
      simp only [Option.map_some']
      rcases List.mem_cons.mp hk with hkl | hkr
      · subst hkl
        unfold lookupDict
        rw [if_pos rfl, hg]
      · have hkne : l0 ≠ k := by
          intro hcontra
          rw [hcontra] at hni
          exact hni hkr
        unfold lookupDict
        rw [if_neg hkne]
        exact ih hnd' k hkr

theorem translateSegmentsLoop_snd
    (oracle : String → String → Except String String)
    (sentencePairs : List Segment) :
    ∀ (langs : List String)
      (result : List (String × List TranslationSegment))
      (warnings : List String),
      (translateSegmentsLoop oracle sentencePairs langs result warnings).2 =
        warnings ++
          (langs.map pyLower).filterMap (langWarning oracle sentencePairs) := by
  intro langs
  induction langs with
  | nil =>
    intro result warnings
    simp only [List.map_nil, List.filterMap_nil, List.append_nil]
    rfl
  | cons lang rest ih =>
    intro result warnings
    unfold translateSegmentsLoop
    dsimp only
    cases hcall : translateLangLoop oracle (pyLower lang) sentencePairs [] with
    | error w =>
      dsimp only
      rw [ih]
      simp [langWarning, hcall]
    | ok ts =>
      dsimp only
      by_cases hempty : ts.isEmpty
      · rw [if_pos hempty, ih]
        simp [langWarning, hcall, hempty]
      · rw [if_neg hempty, ih]
        simp [langWarning, hcall, hempty]

theorem translateSegmentsLoop_fst
    (oracle : String → String → Except String String)
    (sentencePairs : List Segment) :
    ∀ (langs : List String)
      (result : List (String × List TranslationSegment))
      (warnings : List String),
      (∀ lang ∈ langs, ∀ kv ∈ result, kv.1 ≠ pyLower lang) →
      (langs.map pyLower).Nodup →
      (translateSegmentsLoop oracle sentencePairs langs result warnings).1 =
        result ++ (langs.map pyLower).filterMap
          (fun l => (langResult oracle sentencePairs l).map (fun ts => (l, ts))) := by
  intro langs
  induction langs with
  | nil =>
    intro result warnings _ _
    simp only [List.map_nil, List.filterMap_nil, List.append_nil]
    rfl
  | cons lang rest ih =>
    intro result warnings hdisj hnd
    have hnd' : (rest.map pyLower).Nodup := (List.nodup_cons.mp (by simpa using hnd)).2
    have hnotin : pyLower lang ∉ rest.map pyLower :=
      (List.nodup_cons.mp (by simpa using hnd)).1
    have hdisj' : ∀ l ∈ rest, ∀ kv ∈ result, kv.1 ≠ pyLower l :=
      fun l hl kv hkv => hdisj l (List.mem_cons_of_mem _ hl) kv hkv
    unfold translateSegmentsLoop
    dsimp only
    cases hcall : translateLangLoop oracle (pyLower lang) sentencePairs [] with
    | error w =>
      dsimp only
      rw [ih result (warnings ++ [w]) hdisj' hnd']
      simp [langResult, hcall]
    | ok ts =>
      dsimp only
      by_cases hempty : ts.isEmpty
      · rw [if_pos hempty, ih result warnings hdisj' hnd']
        have hts : ts = [] := by simpa using hempty
        simp [langResult, hcall, hts]
      · rw [if_neg hempty]
        have hins : dictInsert result (pyLower lang) ts =
            result ++ [(pyLower lang, ts)] :=
          dictInsert_of_not_mem _ _ _
            (fun kv hkv => hdisj lang (List.mem_cons_self _ _) kv hkv)
        rw [hins, ih (result ++ [(pyLower lang, ts)]) warnings ?_ hnd']
        · have hts : ts ≠ [] := by simpa using hempty
          simp [langResult, hcall, hts, List.append_assoc]
        · intro l hl kv hkv
          rcases List.mem_append.mp hkv with hkv1 | hkv2
          · exact hdisj' l hl kv hkv1
          · have hkvE : kv = (pyLower lang, ts) := by simpa using hkv2
            rw [hkvE]
            intro hcontra
            apply hnotin
            have hpe : pyLower lang = pyLower l := hcontra
            rw [hpe]
            exact List.mem_map_of_mem pyLower hl

/-- C6 (amended): for requested target languages with pairwise-distinct
lowercased codes, `translate_segments` is all-or-nothing per language:
if some segment's translation errors out for a language, that language
is absent from the returned map (all its partial translations are
discarded), the warning list contains exactly the failing languages'
single warning strings in request order, and every other requested
language's map entry equals what processing that language alone
produces. -/
theorem translateSegments_all_or_nothing
    (oracle : String → String → Except String String)
    (sentencePairs : List Segment) (targetLangs : List String)
    (hnd : (targetLangs.map pyLower).Nodup)
    (lang : String) (hmem : lang ∈ targetLangs) (w : String)
    (herr : translateLangLoop oracle (pyLower lang) sentencePairs [] =
      Except.error w) :
    lookupDict (translateSegments oracle sentencePairs targetLangs).1
        (pyLower lang) = none ∧
      (translateSegments oracle sentencePairs targetLangs).2 =
        (targetLangs.map pyLower).filterMap (langWarning oracle sentencePairs) ∧
      ∀ lang2 ∈ targetLangs, pyLower lang2 ≠ pyLower lang →
        lookupDict (translateSegments oracle sentencePairs targetLangs).1
            (pyLower lang2) =
          langResult oracle sentencePairs (pyLower lang2) := by
  have hfst := translateSegmentsLoop_fst oracle sentencePairs targetLangs [] []
    (fun l hl kv hkv => absurd hkv (List.not_mem_nil kv)) hnd
  refine ⟨?_, ?_, ?_⟩
  · unfold translateSegments
    rw [hfst, List.nil_append,
      lookupDict_filterMap (langResult oracle sentencePairs) _ hnd _
        (List.mem_map_of_mem pyLower hmem)]
    simp [langResult, herr]
  · unfold translateSegments
    rw [translateSegmentsLoop_snd, List.nil_append]
  · intro lang2 hmem2 _
    unfold translateSegments
    rw [hfst, List.nil_append,
      lookupDict_filterMap (langResult oracle sentencePairs) _ hnd _
        (List.mem_map_of_mem pyLower hmem2)]

/-- A translation oracle that fails for Dutch and succeeds otherwise. -/
def exOracle : String → String → Except String String :=
  fun lang text =>
    if lang = "nl" then Except.error "boom" else Except.ok (text ++ "!")

/-- A translation oracle that always fails. -/
def failOracle : String → String → Except String String :=
  fun _ _ => Except.error "boom"

/-- C6 (witness): requesting ["en", "nl"] where Dutch fails leaves "nl"
absent, produces exactly the one Dutch warning, and leaves the English
entry what English-alone processing produces. -/
theorem translateSegments_all_or_nothing_witness :
    lookupDict (translateSegments exOracle [⟨0, 1, "hi"⟩] ["en", "nl"]).1
        (pyLower "nl") = none ∧
      (translateSegments exOracle [⟨0, 1, "hi"⟩] ["en", "nl"]).2 =
        (["en", "nl"].map pyLower).filterMap
          (langWarning exOracle [⟨0, 1, "hi"⟩]) ∧
      lookupDict (translateSegments exOracle [⟨0, 1, "hi"⟩] ["en", "nl"]).1
          (pyLower "en") =
        langResult exOracle [⟨0, 1, "hi"⟩] (pyLower "en") := by
  have h := translateSegments_all_or_nothing exOracle [⟨0, 1, "hi"⟩]
    ["en", "nl"] (by decide) "nl" (by decide)
    "Vertaling mislukt voor nl: boom" (by with_unfolding_all rfl)
  exact ⟨h.1, h.2.1, h.2.2 "en" (by decide) (by decide)⟩

/-- C6 (counterexample): the claim quantifies over every requested
language list; on the duplicate request ["en", "en"] with a failing
translator the code appends the Dutch-format warning for "en" twice,
not "exactly one" warning for that language. -/
theorem translateSegments_dup_counterexample :
    (translateSegments failOracle [⟨0, 1, "hi"⟩] ["en", "en"]).2 =
      ["Vertaling mislukt voor en: boom", "Vertaling mislukt voor en: boom"] ∧
      ((translateSegments failOracle [⟨0, 1, "hi"⟩] ["en", "en"]).2.filter
        (fun wmsg => wmsg == "Vertaling mislukt voor en: boom")).length = 2 := by
  constructor
  · with_unfolding_all rfl
  · with_unfolding_all rfl

/-! ### CombinedSubtitleMerger (`main._build_combined_segments`,
lines 165-220) -/

/-- Python `s.split()` (split on whitespace runs, dropping empties),
with the current word accumulated in reverse. -/
def splitWsAux : List Char → List Char → List (List Char)
  | [], cur => if cur.isEmpty then [] else [cur.reverse]
  | c :: rest, cur =>
    if Char.isWhitespace c then
      if cur.isEmpty then splitWsAux rest []
      else cur.reverse :: splitWsAux rest []
    else splitWsAux rest (c :: cur)

/-- The combining loop's text normalization:
`" ".join(seg.text.replace("\r", " ").split())`. -/
def collapseWs (s : String) : String :=
  pyJoin " "
    ((splitWsAux (s.data.map (fun c => if c = '\r' then ' ' else c)) []).map
      String.mk)

/-- The language-collection loop of `_build_combined_segments`:
normalize each requested language (lowercase then strip), skip blanks
and duplicates, fail when a language has no stored translations, and
pair each collected language's segment list. -/
def collectLangs (translations : List (String × List TranslationSegment)) :
    List String → List String → List (String × List TranslationSegment) →
    Except String (List String × List (String × List TranslationSegment))
  | [], cleaned, acc => Except.ok (cleaned, acc)
  | lang :: rest, cleaned, acc =>
    let normalized := pyStrip (pyLower lang)
    if normalized = "" ∨ normalized ∈ cleaned then
      collectLangs translations rest cleaned acc
    else
      match lookupDict translations normalized with
      | none =>
          Except.error ("Subtitles for " ++ normalized ++ " are not available")
      | some segs =>
          collectLangs translations rest (cleaned ++ [normalized])
            (acc ++ [(normalized, pairTranslationSegments segs)])

/-- One language's contribution to the cue at index `idx`: widen the
combined start to the minimum and end to the maximum seen, and append
the uppercase-prefixed normalized line. -/
def combineStep (idx : Nat) (acc : Option ℚ × Option ℚ × List String)
    (entry : String × List TranslationSegment) :
    Option ℚ × Option ℚ × List String :=
  match entry.2[idx]? with
  | none => acc
  | some seg =>
    let newStart :=
      match acc.1 with
      | none => seg.start
      | some v => min v seg.start
    let newStop :=
      match acc.2.1 with
      | none => seg.stop
      | some v => max v seg.stop
    (some newStart, some newStop,
      acc.2.2 ++ [pyUpper entry.1 ++ ": " ++ collapseWs seg.text])

/-- The combined cue at index `idx`, skipped when no language
contributed a line. -/
def combineAt (segmentsByLang : List (String × List TranslationSegment))
    (label : String) (idx : Nat) : Option TranslationSegment :=
  match segmentsByLang.foldl (combineStep idx) (none, none, []) with
  | (some s, some e, lines) =>
      if lines.isEmpty then none
      else some ⟨s, e, pyJoin "\n" lines, label⟩
  | _ => none

/-- `main._build_combined_segments`: the `ValueError` raises are
embedded as `Except.error`. -/
def buildCombinedSegments
    (translations : List (String × List TranslationSegment))
    (languages : List String) : Except String (List TranslationSegment) :=
  if languages.length < 2 then
    Except.error
      "At least two languages are required to build a combined subtitle track"
  else
    match collectLangs translations languages [] [] with
    | Except.error e => Except.error e
    | Except.ok (cleanedLangs, segmentsByLang) =>
      if cleanedLangs.length < 2 then
        Except.error "Subtitles for two different languages are required"
      else
        let maxLen := (segmentsByLang.map (fun p => p.2.length)).foldl max 0
        Except.ok ((List.range maxLen).filterMap
          (combineAt segmentsByLang (pyJoin "+" cleanedLangs)))

/-- Whether an `Except` result is an error. -/
def isErr {ε α : Type} : Except ε α → Bool
  | Except.error _ => true
  | Except.ok _ => false

/-- Claim C7's de-duplication: the distinct, non-blank normalized
language codes of a request, in first-seen order. -/
def requestedLangs : List String → List String → List String
  | cleaned, [] => cleaned
  | cleaned, lang :: rest =>
    let n := pyStrip (pyLower lang)
    if n = "" ∨ n ∈ cleaned then requestedLangs cleaned rest
    else requestedLangs (cleaned ++ [n]) rest

theorem requestedLangs_nil (cleaned : List String) :
    requestedLangs cleaned [] = cleaned := rfl

theorem requestedLangs_cons (cleaned : List String) (lang : String)
    (rest : List String) :
    requestedLangs cleaned (lang :: rest) =
      if pyStrip (pyLower lang) = "" ∨ pyStrip (pyLower lang) ∈ cleaned then
        requestedLangs cleaned rest
      else requestedLangs (cleaned ++ [pyStrip (pyLower lang)]) rest := rfl

theorem collectLangs_ok
    (translations : List (String × List TranslationSegment)) :
    ∀ (rest : List String) (cleaned : List String)
      (acc : List (String × List TranslationSegment)) (c : List String)
      (a : List (String × List TranslationSegment)),
      collectLangs translations rest cleaned acc = Except.ok (c, a) →
      c = requestedLangs cleaned rest ∧
        ∀ lang ∈ rest, pyStrip (pyLower lang) ≠ "" →
          pyStrip (pyLower lang) ∈ cleaned ∨
            (lookupDict translations (pyStrip (pyLower lang))).isSome := by
  intro rest
  induction rest with
  | nil =>
    intro cleaned acc c a h
    have heq : (cleaned, acc) = (c, a) := by simpa [collectLangs] using h
    rw [Prod.mk.injEq] at heq
    exact ⟨by rw [requestedLangs_nil]; exact heq.1.symm,
      fun lang hl => absurd hl (List.not_mem_nil lang)⟩
  | cons lang rest ih =>
    intro cleaned acc c a h
    unfold collectLangs at h
    dsimp only at h
    by_cases h1 : pyStrip (pyLower lang) = "" ∨ pyStrip (pyLower lang) ∈ cleaned
    · rw [if_pos h1] at h
      obtain ⟨hc, hrest⟩ := ih cleaned acc c a h
      refine ⟨by rw [hc, requestedLangs_cons, if_pos h1], ?_⟩
      intro lang2 hmem hne
      rcases List.mem_cons.mp hmem with hl | hl
      · subst hl
        rcases h1 with h1 | h1
        · exact absurd h1 hne
        · exact Or.inl h1
      · exact hrest lang2 hl hne
    · rw [if_neg h1] at h
      cases hlook : lookupDict translations (pyStrip (pyLower lang)) with
      | none => rw [hlook] at h; exact absurd h (by simp)
      | some segs =>
        rw [hlook] at h
        obtain ⟨hc, hrest⟩ :=
          ih (cleaned ++ [pyStrip (pyLower lang)])
            (acc ++ [(pyStrip (pyLower lang), pairTranslationSegments segs)])
            c a h
        refine ⟨by rw [hc, requestedLangs_cons, if_neg h1], ?_⟩
        intro lang2 hmem hne
        rcases List.mem_cons.mp hmem with hl | hl
        · subst hl
          exact Or.inr (by rw [hlook]; rfl)
        · rcases hrest lang2 hl hne with hin | hsome
          · rcases List.mem_append.mp hin with hin1 | hin2
            · exact Or.inl hin1
            · have : pyStrip (pyLower lang2) = pyStrip (pyLower lang) := by
                simpa using hin2
              exact Or.inr (by rw [this, hlook]; rfl)
          · exact Or.inr hsome

/-- C7: `_build_combined_segments` fails with a `ValueError` whenever,
after normalization and de-duplication, fewer than two distinct
non-blank languages remain, or whenever some requested non-blank
language has no stored translations; in those cases no combined list is
returned. -/
theorem buildCombinedSegments_error
    (translations : List (String × List TranslationSegment))
    (languages : List String)
    (h : (requestedLangs [] languages).length < 2 ∨
      ∃ lang ∈ languages, pyStrip (pyLower lang) ≠ "" ∧
        lookupDict translations (pyStrip (pyLower lang)) = none) :
    isErr (buildCombinedSegments translations languages) = true := by
  unfold buildCombinedSegments
  by_cases hlen : languages.length < 2
  · rw [if_pos hlen]
    rfl
  · rw [if_neg hlen]
    cases hcol : collectLangs translations languages [] [] with
    | error e => rfl
    | ok pair =>
      obtain ⟨c, a⟩ := pair
      obtain ⟨hc, havail⟩ := collectLangs_ok translations languages [] [] c a hcol
      dsimp only
      by_cases hclen : c.length < 2
      · rw [if_pos hclen]
        rfl
      · exfalso
        rcases h with h1 | ⟨lang, hmem, hne, hnone⟩
        · rw [hc] at hclen
          exact hclen h1
        · rcases havail lang hmem hne with hin | hsome
          · exact List.not_mem_nil _ hin
          · rw [hnone] at hsome
            simp at hsome

/-- C7 (witness): a single-language request fails (here with the
too-few-languages error), producing no combined list. -/
theorem buildCombinedSegments_error_witness :
    isErr (buildCombinedSegments [] ["en"]) = true :=
  buildCombinedSegments_error [] ["en"] (Or.inl (by decide))

/-- The two-language example of claim C3 (times as exact rationals:
1.5 = 3/2, 1.6 = 8/5, 3.5 = 7/2, 3.2 = 16/5). -/
def exTranslations : List (String × List TranslationSegment) :=
  [("en", [⟨0, 3/2, "Hello world", "en"⟩, ⟨2, 7/2, "How are you?", "en"⟩]),
   ("nl", [⟨0, 8/5, "Hallo wereld", "nl"⟩, ⟨2, 16/5, "Hoe gaat het?", "nl"⟩])]

/-- C3 (counterexample): on the claim's example the builder returns ONE
combined cue, not two, because `_build_combined_segments` first pairs
each language's segments two-at-a-time (`pair_translation_segments`),
collapsing the two cues per language into one; the single cue spans
0→3.5 s and carries the pair-joined texts, so `combined[0]` is not
`(0.0, 1.6, "EN: Hello world\nNL: Hallo wereld")`. -/
theorem buildCombined_example_counterexample :
    (buildCombinedSegments exTranslations ["en", "nl"]).map List.length =
        Except.ok 1 ∧
      buildCombinedSegments exTranslations ["en", "nl"] =
        Except.ok [⟨0, 7/2,
          "EN: Hello world How are you?\nNL: Hallo wereld Hoe gaat het?",
          "en+nl"⟩] ∧
      (1 : Nat) ≠ 2 := by
  refine ⟨?_, ?_, by decide⟩
  · with_unfolding_all rfl
  · with_unfolding_all rfl

/-- C3 (amended): after the builder's internal pairing each language
contributes ceil(2/2) = 1 cue, so the output has exactly 1 combined
cue; its start is the minimum (min 0 0 = 0) and its end the maximum
(max 3.5 3.2 = 3.5) across the two languages' paired cues, and its text
is one uppercase-prefixed line per language in requested order. -/
theorem buildCombined_example :
    buildCombinedSegments exTranslations ["en", "nl"] =
      Except.ok [⟨min (0 : ℚ) 0, max (7/2 : ℚ) (16/5),
        pyJoin "\n" ["EN: Hello world How are you?",
          "NL: Hallo wereld Hoe gaat het?"],
        pyJoin "+" ["en", "nl"]⟩] ∧
      pairTranslationSegments
          [⟨0, 3/2, "Hello world", "en"⟩, ⟨2, 7/2, "How are you?", "en"⟩] =
        [⟨0, 7/2, "Hello world How are you?", "en"⟩] ∧
      pairTranslationSegments
          [⟨0, 8/5, "Hallo wereld", "nl"⟩, ⟨2, 16/5, "Hoe gaat het?", "nl"⟩] =
        [⟨0, 16/5, "Hallo wereld Hoe gaat het?", "nl"⟩] := by
  refine ⟨?_, ?_, ?_⟩ <;> with_unfolding_all rfl

/-! ### Combined-subtitle filename round trip
(`main._combined_subtitle_filename`, lines 222-224, and
`main._combined_subtitle_key`, lines 227-238) -/

/-- Python `sep.join(parts)` at character level (single-character
separator). -/
def joinSep (sep : Char) : List (List Char) → List Char
  | [] => []
  | [p] => p
  | p :: rest => p ++ sep :: joinSep sep rest

/-- Python `s.split(sep)` for a single-character separator (keeps empty
parts, exactly like `str.split`). -/
def splitSep (sep : Char) : List Char → List (List Char)
  | [] => [[]]
  | c :: rest =>
    let r := splitSep sep rest
    if c = sep then [] :: r
    else (c :: r.headD []) :: r.tail

/-- `main._combined_subtitle_filename`:
`"subs_combined_" + "_".join(lang.lower().strip() for lang in languages
if lang.strip()) + ".vtt"`. -/
def combinedSubtitleFilename (languages : List String) : String :=
  let safe := joinSep '_'
    ((languages.filter (fun l => pyStripChars l.data ≠ [])).map
      (fun l => pyStripChars (pyLower l).data))
  String.mk ("subs_combined_".data ++ safe ++ ".vtt".data)

/-- The index of the last '.' in a name (Python `name.rfind('.')`,
`none` when absent). -/
def lastDotIdx : List Char → Option Nat
  | [] => none
  | c :: rest =>
    match lastDotIdx rest with
    | some j => some (j + 1)
    | none => if c = '.' then some 0 else none

/-- Python `pathlib.PurePosixPath(s).stem` for the relative path
strings at hand: the last non-empty '/'-separated component, with the
suffix after the last dot removed when that dot is neither the leading
nor the trailing character. -/
def pathStem (s : List Char) : List Char :=
  let name := ((splitSep '/' s).filter (fun comp => comp ≠ [])).getLastD []
  match lastDotIdx name with
  | none => name
  | some i => if 0 < i ∧ i < name.length - 1 then name.take i else name

/-- `main._combined_subtitle_key`: parse a combined-subtitle path back
into its `+`-joined language key, `none` when the name does not parse. -/
def combinedSubtitleKey (path : String) : Option String :=
  let stem := pathStem path.data
  if "subs_combined_".data.isPrefixOf stem then
    let suffix := stem.drop "subs_combined_".data.length
    if suffix = [] then none
    else
      let parts := (splitSep '_' suffix).filter (fun p => p ≠ [])
      if parts.length < 2 then none
      else some (String.mk (joinSep '+' parts))
  else none

theorem splitSep_cons (sep c : Char) (rest : List Char) :
    splitSep sep (c :: rest) =
      if c = sep then [] :: splitSep sep rest
      else (c :: (splitSep sep rest).headD []) :: (splitSep sep rest).tail :=
  rfl

theorem splitSep_ne_nil (sep : Char) : ∀ l : List Char, splitSep sep l ≠ []
  | [] => by simp [splitSep]
  | c :: rest => by
    rw [splitSep_cons]
    by_cases h : c = sep <;> simp [h]

theorem cons_headD_tail {α : Type} (xs : List α) (hne : xs ≠ []) (d : α) :
    xs.headD d :: xs.tail = xs := by
  cases xs with
  | nil => exact absurd rfl hne
  | cons a as => rfl

theorem splitSep_append_no_sep (sep : Char) :
    ∀ (p : List Char), sep ∉ p → ∀ l : List Char,
      splitSep sep (p ++ l) =
        (p ++ (splitSep sep l).headD []) :: (splitSep sep l).tail
  | [], _, l => by
    simpa using (cons_headD_tail (splitSep sep l) (splitSep_ne_nil sep l) []).symm
  | a :: p', hp, l => by
    have ha : a ≠ sep := fun h => hp (h ▸ List.mem_cons_self a p')
    have hp' : sep ∉ p' := fun h => hp (List.mem_cons_of_mem a h)
    have ih := splitSep_append_no_sep sep p' hp' l
    rw [List.cons_append, splitSep_cons, if_neg ha, ih]
    simp

theorem splitSep_sep_cons (sep : Char) (l : List Char) :
    splitSep sep (sep :: l) = [] :: splitSep sep l := by
  rw [splitSep_cons, if_pos rfl]

theorem splitSep_of_no_sep (sep : Char) (l : List Char) (h : sep ∉ l) :
    splitSep sep l = [l] := by
  have := splitSep_append_no_sep sep l h []
  simpa [splitSep] using this

theorem splitSep_joinSep (sep : Char) :
    ∀ parts : List (List Char), parts ≠ [] → (∀ p ∈ parts, sep ∉ p) →
      splitSep sep (joinSep sep parts) = parts
  | [], hne, _ => absurd rfl hne
  | [p], _, hsep => by
    rw [joinSep, splitSep_of_no_sep sep p (hsep p (List.mem_cons_self p []))]
  | p :: q :: rest, _, hsep => by
    have hp : sep ∉ p := hsep p (List.mem_cons_self _ _)
    have ih := splitSep_joinSep sep (q :: rest) (by simp)
      (fun r hr => hsep r (List.mem_cons_of_mem p hr))
    have hjoin : joinSep sep (p :: q :: rest) =
        p ++ sep :: joinSep sep (q :: rest) := rfl
    rw [hjoin, splitSep_append_no_sep sep p hp, splitSep_sep_cons, ih]
    simp

theorem ofNat_lower_range (m : Nat) (h1 : 97 ≤ m) (h2 : m ≤ 122) :
    Char.ofNat m ≠ '_' ∧ Char.ofNat m ≠ '/' ∧
      (Char.ofNat m).isWhitespace = false := by
  interval_cases m <;> exact ⟨by decide, by decide, by decide⟩

theorem toLower_branch (c : Char) :
    Char.toLower c = c ∨
      ∃ m, 97 ≤ m ∧ m ≤ 122 ∧ Char.toLower c = Char.ofNat m := by
  unfold Char.toLower
  dsimp only
  by_cases h : c.toNat ≥ 65 ∧ c.toNat ≤ 90
  · rw [if_pos h]
    exact Or.inr ⟨c.toNat + 32, by omega, by omega, rfl⟩
  · rw [if_neg h]
    exact Or.inl rfl

theorem toLower_eq_underscore {c : Char} (h : Char.toLower c = '_') :
    c = '_' := by
  rcases toLower_branch c with heq | ⟨m, h1, h2, heq⟩
  · rw [← heq]
    exact h
  · rw [heq] at h
    exact absurd h (ofNat_lower_range m h1 h2).1

theorem toLower_eq_slash {c : Char} (h : Char.toLower c = '/') :
    c = '/' := by
  rcases toLower_branch c with heq | ⟨m, h1, h2, heq⟩
  · rw [← heq]
    exact h
  · rw [heq] at h
    exact absurd h (ofNat_lower_range m h1 h2).2.1

theorem isWhitespace_of_toLower {c : Char}
    (h : (Char.toLower c).isWhitespace = true) : c.isWhitespace = true := by
  rcases toLower_branch c with heq | ⟨m, h1, h2, heq⟩
  · rw [← heq]
    exact h
  · rw [heq, (ofNat_lower_range m h1 h2).2.2] at h
    exact absurd h (by simp)

theorem pyStripChars_eq_nil_iff (l : List Char) :
    pyStripChars l = [] ↔ ∀ c ∈ l, c.isWhitespace = true := by
  unfold pyStripChars
  constructor
  · intro h c hc
    rw [List.reverse_eq_nil_iff, List.dropWhile_eq_nil_iff] at h
    have hdl : ∀ x ∈ l.dropWhile Char.isWhitespace, x.isWhitespace = true :=
      fun x hx => h x (List.mem_reverse.mpr hx)
    have hc' : c ∈ l.takeWhile Char.isWhitespace ++
        l.dropWhile Char.isWhitespace := by
      rw [List.takeWhile_append_dropWhile]
      exact hc
    rcases List.mem_append.mp hc' with h1 | h2
    · exact List.mem_takeWhile_imp h1
    · exact hdl c h2
  · intro h
    have hzero : l.dropWhile Char.isWhitespace = [] :=
      List.dropWhile_eq_nil_iff.mpr (fun x hx => h x hx)
    rw [hzero]
    rfl

theorem mem_of_mem_pyStripChars {c : Char} {l : List Char}
    (h : c ∈ pyStripChars l) : c ∈ l := by
  unfold pyStripChars at h
  rw [List.mem_reverse] at h
  have h2 := (List.dropWhile_sublist _).subset h
  rw [List.mem_reverse] at h2
  exact (List.dropWhile_sublist _).subset h2

theorem mem_joinSep (sep : Char) :
    ∀ (parts : List (List Char)) (c : Char), c ∈ joinSep sep parts →
      c = sep ∨ ∃ p ∈ parts, c ∈ p
  | [], c, h => by simp [joinSep] at h
  | [p], c, h => by
    rw [joinSep] at h
    exact Or.inr ⟨p, List.mem_cons_self _ _, h⟩
  | p :: q :: rest, c, h => by
    have hj : joinSep sep (p :: q :: rest) =
        p ++ sep :: joinSep sep (q :: rest) := rfl
    rw [hj] at h
    rcases List.mem_append.mp h with h1 | h2
    · exact Or.inr ⟨p, List.mem_cons_self _ _, h1⟩
    · rcases List.mem_cons.mp h2 with h3 | h4
      · exact Or.inl h3
      · rcases mem_joinSep sep (q :: rest) c h4 with h5 | ⟨r, hr, hcr⟩
        · exact Or.inl h5
        · exact Or.inr ⟨r, List.mem_cons_of_mem p hr, hcr⟩

theorem joinSep_two_ne_nil (sep : Char) (p q : List Char)
    (rest : List (List Char)) : joinSep sep (p :: q :: rest) ≠ [] := by
  have hj : joinSep sep (p :: q :: rest) =
      p ++ sep :: joinSep sep (q :: rest) := rfl
  rw [hj]
  simp

theorem processedCode_props (l : List Char) (hne : pyStripChars l ≠ [])
    (hus : '_' ∉ l) (hsl : '/' ∉ l) :
    pyStripChars (l.map Char.toLower) ≠ [] ∧
      '_' ∉ pyStripChars (l.map Char.toLower) ∧
      '/' ∉ pyStripChars (l.map Char.toLower) := by
  refine ⟨?_, ?_, ?_⟩
  · intro hnil
    apply hne
    rw [pyStripChars_eq_nil_iff] at hnil ⊢
    intro c hc
    exact isWhitespace_of_toLower (hnil (Char.toLower c) (List.mem_map_of_mem _ hc))
  · intro hmem
    obtain ⟨c, hc, hceq⟩ := List.mem_map.mp (mem_of_mem_pyStripChars hmem)
    exact hus (toLower_eq_underscore hceq ▸ hc)
  · intro hmem
    obtain ⟨c, hc, hceq⟩ := List.mem_map.mp (mem_of_mem_pyStripChars hmem)
    exact hsl (toLower_eq_slash hceq ▸ hc)

theorem lastDotIdx_cons (c : Char) (rest : List Char) :
    lastDotIdx (c :: rest) =
      match lastDotIdx rest with
      | some j => some (j + 1)
      | none => if c = '.' then some 0 else none := rfl

theorem lastDotIdx_append_vtt :
    ∀ A : List Char, lastDotIdx (A ++ ".vtt".data) = some A.length
  | [] => rfl
  | a :: A => by
    have ih := lastDotIdx_append_vtt A
    rw [List.cons_append, lastDotIdx_cons, ih]
    simp

theorem isPrefixOf_append_self : ∀ p t : List Char,
    p.isPrefixOf (p ++ t) = true
  | [], t => by simp [List.isPrefixOf]
  | a :: p', t => by
    rw [List.cons_append]
    simp [List.isPrefixOf, isPrefixOf_append_self p' t]

/-- C10 (amended): for every list of at least two language codes, each
non-blank after stripping and containing neither an underscore nor a
path separator, `_combined_subtitle_key` applied to the path named by
`_combined_subtitle_filename(languages)` returns exactly the stripped
lowercased codes joined by "+" in the requested order. -/
theorem combinedSubtitleKey_roundtrip (languages : List String)
    (hlen : 2 ≤ languages.length)
    (hcodes : ∀ l ∈ languages,
      pyStripChars l.data ≠ [] ∧ '_' ∉ l.data ∧ '/' ∉ l.data) :
    combinedSubtitleKey (combinedSubtitleFilename languages) =
      some (String.mk (joinSep '+'
        (languages.map (fun l => pyStripChars (pyLower l).data)))) := by
  have hfilter :
      languages.filter (fun l => pyStripChars l.data ≠ []) = languages := by
    rw [List.filter_eq_self]
    intro a ha
    simpa using (hcodes a ha).1
  have hpartprops :
      ∀ p ∈ languages.map (fun l => pyStripChars (pyLower l).data),
        p ≠ [] ∧ '_' ∉ p ∧ '/' ∉ p := by
    intro p hp
    obtain ⟨l, hl, hpl⟩ := List.mem_map.mp hp
    obtain ⟨h1, h2, h3⟩ := hcodes l hl
    rw [← hpl]
    exact processedCode_props l.data h1 h2 h3
  have hplen :
      (languages.map (fun l => pyStripChars (pyLower l).data)).length =
        languages.length := List.length_map _ _
  rcases hpshape : languages.map (fun l => pyStripChars (pyLower l).data) with
    _ | ⟨p1, _ | ⟨p2, ps⟩⟩
  · rw [hpshape] at hplen
    simp at hplen
    omega
  · rw [hpshape] at hplen
    simp at hplen
    omega
  · have hprops : ∀ p ∈ p1 :: p2 :: ps, p ≠ [] ∧ '_' ∉ p ∧ '/' ∉ p := by
      intro p hp
      apply hpartprops
      rw [hpshape]
      exact hp
    have hfile : combinedSubtitleFilename languages =
        String.mk ("subs_combined_".data ++ joinSep '_' (p1 :: p2 :: ps) ++
          ".vtt".data) := by
      unfold combinedSubtitleFilename
      dsimp only
      rw [hfilter, hpshape]
    have hnoslash : '/' ∉ "subs_combined_".data ++
        joinSep '_' (p1 :: p2 :: ps) ++ ".vtt".data := by
      intro hmem
      rcases List.mem_append.mp hmem with h1 | h2
      · rcases List.mem_append.mp h1 with h3 | h4
        · exact absurd h3 (by decide)
        · rcases mem_joinSep '_' _ _ h4 with h5 | ⟨r, hr, hcr⟩
          · exact absurd h5 (by decide)
          · exact (hprops r hr).2.2 hcr
      · exact absurd h2 (by decide)
    have hne14 : ("subs_combined_".data).length = 14 := by decide
    have hvtt4 : (".vtt".data).length = 4 := by decide
    have hcond : 0 < ("subs_combined_".data ++
          joinSep '_' (p1 :: p2 :: ps)).length ∧
        ("subs_combined_".data ++ joinSep '_' (p1 :: p2 :: ps)).length <
          ("subs_combined_".data ++ joinSep '_' (p1 :: p2 :: ps) ++
            ".vtt".data).length - 1 := by
      rw [List.length_append ("subs_combined_".data ++
        joinSep '_' (p1 :: p2 :: ps)) ".vtt".data,
        List.length_append "subs_combined_".data
          (joinSep '_' (p1 :: p2 :: ps)), hne14, hvtt4]
      omega
    have hstem : pathStem ("subs_combined_".data ++
          joinSep '_' (p1 :: p2 :: ps) ++ ".vtt".data) =
        "subs_combined_".data ++ joinSep '_' (p1 :: p2 :: ps) := by
      unfold pathStem
      dsimp only
      rw [splitSep_of_no_sep '/' _ hnoslash]
      have hsne : "subs_combined_".data ++ joinSep '_' (p1 :: p2 :: ps) ++
          ".vtt".data ≠ [] := by simp
      rw [List.filter_eq_self.mpr (fun a ha => by
        rw [List.mem_singleton] at ha
        subst ha
        simp [hsne])]
      have hlast : [("subs_combined_".data ++ joinSep '_' (p1 :: p2 :: ps) ++
          ".vtt".data)].getLastD ([] : List Char) =
          "subs_combined_".data ++ joinSep '_' (p1 :: p2 :: ps) ++
            ".vtt".data := rfl
      rw [hlast, lastDotIdx_append_vtt ("subs_combined_".data ++
        joinSep '_' (p1 :: p2 :: ps))]
      dsimp only
      rw [if_pos hcond]
      exact List.take_left _ _
    have hnous : ∀ p ∈ p1 :: p2 :: ps, '_' ∉ p :=
      fun p hp => (hprops p hp).2.1
    unfold combinedSubtitleKey
    dsimp only
    rw [hfile]
    show (if ("subs_combined_".data.isPrefixOf (pathStem
        ("subs_combined_".data ++ joinSep '_' (p1 :: p2 :: ps) ++
          ".vtt".data))) = true then _ else _) = _
    rw [hstem, if_pos (isPrefixOf_append_self _ _), List.drop_left,
      if_neg (joinSep_two_ne_nil '_' p1 p2 ps),
      splitSep_joinSep '_' (p1 :: p2 :: ps) (by simp) hnous,
      List.filter_eq_self.mpr (fun p hp => by simpa using (hprops p hp).1),
      if_neg (by simp)]

/-- C10 (witness): the request ["EN ", "nl"] (note the stray
whitespace and uppercase) round-trips to the key "en+nl". -/
theorem combinedSubtitleKey_roundtrip_witness :
    combinedSubtitleKey (combinedSubtitleFilename ["EN ", "nl"]) =
        some (String.mk (joinSep '+'
          (["EN ", "nl"].map (fun l => pyStripChars (pyLower l).data)))) ∧
      combinedSubtitleKey (combinedSubtitleFilename ["EN ", "nl"]) =
        some "en+nl" := by
  have h := combinedSubtitleKey_roundtrip ["EN ", "nl"] (by decide) (by decide)
  refine ⟨h, ?_⟩
  rw [h]
  rfl

/-- C10 (counterexample): the code "a/b" is non-empty after stripping
and contains no underscore, yet the round-trip fails: the slash makes
`Path(...).stem` see only the last path component "b_nl", which lacks
the "subs_combined_" prefix, so the key parser returns `None` instead
of "a/b+nl". -/
theorem combinedSubtitleKey_slash_counterexample :
    combinedSubtitleKey (combinedSubtitleFilename ["a/b", "nl"]) = none ∧
      combinedSubtitleKey (combinedSubtitleFilename ["a/b", "nl"]) ≠
        some (String.mk (joinSep '+'
          (["a/b", "nl"].map (fun l => pyStripChars (pyLower l).data)))) := by
  constructor
  · with_unfolding_all rfl
  · with_unfolding_all (exact of_decide_eq_true rfl)

end VT
